import Mathlib

/-
Verification of the nsha-tool repository (pkg/git): a shallow embedding of
the integrity scanner (fsck.go), the replacement planner (replace.go) and
the history rewrite engine (filter.go), with theorems settling the frozen
claims about them.

Modelling conventions:
* A git hash is a 160-bit identifier rendered as 40 hex characters; the
  lexical order on the fixed-width rendering coincides with numeric order,
  so hashes are modelled as naturals and `plumbing.ZeroHash` as `0`.
* Signatures and messages are never inspected by the tool, only copied,
  so they are modelled as opaque naturals.
* The object store is an association list from hash to commit.  Content
  addressing (SHA-1) is modelled by an injective encoding `hashCommit`;
  a store is well formed (`StoreValid`) when every stored commit sits at
  the hash of its own content.
-/

namespace Nsha

abbrev Hash := Nat

/-- `plumbing.ZeroHash`: the all-zero sentinel hash. -/
def zeroHash : Hash := 0

/-- A commit as read and written by the tool (go-git `object.Commit`
restricted to the fields filter.go / replace.go / fsck.go touch):
tree hash, ordered parent hashes, author, committer (with its
timestamp `When`, used by `findMostRecentValidCommit`) and message. -/
structure Commit where
  tree          : Hash
  parents       : List Hash
  author        : Nat
  committer     : Nat
  committerWhen : Nat
  message       : Nat
deriving DecidableEq, Repr

/-- Association-list lookup (a Go `map` read, and go-git object lookup). -/
def lookupL {β : Type} (k : Nat) : List (Nat × β) → Option β
  | [] => none
  | (k', v) :: t => if k' = k then some v else lookupL k t

/-- The commit object store: hash → commit, as an association list. -/
abbrev Store := List (Hash × Commit)

/-- `repo.CommitObject h`: load the commit stored at `h`, if any. -/
def lookupCommit (s : Store) (h : Hash) : Option Commit := lookupL h s

/-- Injective encoding of a list of naturals (used by `hashCommit`). -/
def encodeList : List Nat → Nat
  | [] => 0
  | a :: t => Nat.pair a (encodeList t) + 1

/-- Content address of a commit: an injective stand-in for SHA-1 over the
encoded commit bytes.  The `+ 1` keeps every content hash distinct from
`zeroHash`, as in reality. -/
def hashCommit (c : Commit) : Hash :=
  Nat.pair c.tree
    (Nat.pair (encodeList c.parents)
      (Nat.pair c.author (Nat.pair c.committer
        (Nat.pair c.committerWhen c.message)))) + 1

/-- A store is content addressed: whatever a hash resolves to is a commit
whose own content hash is that hash. -/
def StoreValid (s : Store) : Prop :=
  ∀ h c, lookupCommit s h = some c → h = hashCommit c

/-- `repo.Storer.SetEncodedObject` on a commit: content-addressed store,
idempotent on identical content; returns the stored-at hash. -/
def storeCommit (s : Store) (c : Commit) : Store × Hash :=
  match lookupCommit s (hashCommit c) with
  | some _ => (s, hashCommit c)
  | none => ((hashCommit c, c) :: s, hashCommit c)

theorem encodeList_injective : Function.Injective encodeList := by
  intro l₁
  induction l₁ with
  | nil =>
    intro l₂ h
    cases l₂ with
    | nil => rfl
    | cons b t => simp [encodeList] at h
  | cons a t ih =>
    intro l₂ h
    cases l₂ with
    | nil => simp [encodeList] at h
    | cons b t₂ =>
      simp only [encodeList, Nat.add_right_cancel_iff] at h
      obtain ⟨h3, h4⟩ := Nat.pair_eq_pair.mp h
      exact h3 ▸ (ih h4) ▸ rfl

theorem hashCommit_injective : Function.Injective hashCommit := by
  intro c₁ c₂ h
  simp only [hashCommit, Nat.add_right_cancel_iff, Nat.pair_eq_pair] at h
  obtain ⟨h1, h2, h3, h4, h5, h6⟩ := h
  cases c₁; cases c₂
  simp only [Commit.mk.injEq]
  exact ⟨h1, encodeList_injective h2, h3, h4, h5, h6⟩

theorem hashCommit_ne_zero (c : Commit) : hashCommit c ≠ zeroHash := by
  simp [hashCommit, zeroHash]

/-- If every entry of the association list keys its commit by content
hash, the store is valid.  (Bridges the decidable entry-wise check used
by witnesses to the quantified `StoreValid`.) -/
theorem storeValid_of_entries (s : Store)
    (h : ∀ e ∈ s, e.1 = hashCommit e.2) : StoreValid s := by
  intro k c hk
  induction s with
  | nil => simp [lookupCommit, lookupL] at hk
  | cons e t ih =>
    simp only [lookupCommit, lookupL] at hk
    by_cases he : e.1 = k
    · simp only [he, if_pos rfl] at hk
      cases hk
      exact he ▸ h e (List.mem_cons_self e t)
    · rw [if_neg he] at hk
      exact ih (fun e' he' => h e' (List.mem_cons_of_mem e he')) hk

/-! ## History rewrite engine (filter.go) -/

/-- The overlay: old hash → replacement hash (`commitMap` in filter.go).
Insertion is modelled by prepending, lookup by `lookupL`. -/
abbrev Overlay := List (Hash × Hash)

/-- Result of `rewriteCommit`: the hash to use for the commit, plus the
(possibly extended) object store. -/
structure RewriteResult where
  hash  : Hash
  store : Store
deriving DecidableEq, Repr

/-- `rewriteCommit` (filter.go:185-240): if the commit is directly
replaced, return the replacement; if it cannot be read, return it
unchanged; otherwise substitute every parent that is a key of the
overlay, and if any parent was substituted, encode and store a new
commit with the same tree/author/committer/message. -/
def rewriteCommit (store : Store) (commitMap : Overlay) (oldHash : Hash) :
    RewriteResult :=
  match lookupL oldHash commitMap with
  | some newHash => ⟨newHash, store⟩
  | none =>
    match lookupCommit store oldHash with
    | none => ⟨oldHash, store⟩
    | some oldCommit =>
      let needsRewrite := oldCommit.parents.any
        (fun p => (lookupL p commitMap).isSome)
      if needsRewrite then
        let newCommit : Commit :=
          { oldCommit with
            parents := oldCommit.parents.map
              (fun p => (lookupL p commitMap).getD p) }
        let sp := storeCommit store newCommit
        ⟨sp.2, sp.1⟩
      else ⟨oldHash, store⟩

/-- State threaded through `FilterRepo`'s rewrite loop. -/
structure FilterState where
  store     : Store
  commitMap : Overlay
deriving DecidableEq, Repr

/-- One iteration of `FilterRepo`'s loop over the commit list
(filter.go:49-59): rewrite the commit and record the mapping only if the
hash changed. -/
def filterStep (st : FilterState) (oldHash : Hash) : FilterState :=
  let r := rewriteCommit st.store st.commitMap oldHash
  if r.hash = oldHash then ⟨r.store, st.commitMap⟩
  else ⟨r.store, (oldHash, r.hash) :: st.commitMap⟩

/-- The full rewrite walk: fold `filterStep` over the commit order. -/
def filterWalk (st : FilterState) (commits : List Hash) : FilterState :=
  commits.foldl filterStep st

theorem map_eq_self_of_mem {α : Type} (f : α → α) (l : List α)
    (h : l.map f = l) : ∀ x ∈ l, f x = x := by
  induction l with
  | nil => intro x hx; cases hx
  | cons a t ih =>
    simp only [List.map_cons, List.cons.injEq] at h
    intro x hx
    cases hx with
    | head => exact h.1
    | tail _ hx' => exact ih h.2 x hx'

/-! ## getAllCommitsTopological (filter.go:94-161)

The function collects the commits reachable from branch/tag references
into a Go map (`commitSet`), copies the keys out in map-iteration order
— which Go randomises per run — and then calls `sort.Slice` with the
comparator of filter.go:137-157.  For slices shorter than 12 elements
Go's `sort.Slice` is plain insertion sort, modelled faithfully below;
the model is parameterised by `enum`, the map-iteration order of the
key copy at filter.go:131-134. -/

/-- Parent hashes of the commit stored at `h` (`[]` if unreadable). -/
def parentsOf (store : Store) (h : Hash) : List Hash :=
  match lookupCommit store h with
  | some c => c.parents
  | none => []

/-- The `less` comparator of filter.go:137-157: when both commits load,
a direct parent sorts before its child, otherwise (and when either
side fails to load) hashes compare by their 40-hex rendering, which for
fixed-width hex coincides with numeric order. -/
def cmpCommits (store : Store) (i j : Hash) : Bool :=
  match lookupCommit store i, lookupCommit store j with
  | some ci, some cj =>
    if i ∈ cj.parents then true
    else if j ∈ ci.parents then false
    else decide (i < j)
  | _, _ => decide (i < j)

/-- Numeric (= fixed-width lexical) hash order as a boolean. -/
def natLt (a b : Hash) : Bool := decide (a < b)

/-- One step of Go's insertion sort: insert `x` into the already
processed prefix, scanning from its right end (the prefix is kept
reversed, so its head is the last element); `x` moves left past an
element exactly while `less x elem`. -/
def insGoRev (less : Hash → Hash → Bool) (x : Hash) : List Hash → List Hash
  | [] => [x]
  | h :: t => if less x h then h :: insGoRev less x t else x :: h :: t

/-- Go's `insertionSort` (what `sort.Slice` runs on short slices). -/
def goInsertionSort (less : Hash → Hash → Bool) (l : List Hash) : List Hash :=
  (l.foldl (fun acc x => insGoRev less x acc) []).reverse

/-- The commit ordering returned by `getAllCommitsTopological`, given
the map-iteration order `enum` of the collected commit set. -/
def topoSortModel (store : Store) (enum : List Hash) : List Hash :=
  goInsertionSort (cmpCommits store) enum

/-- The claimed property of the output: no commit is followed by one of
its own parents — i.e. every parent that occurs in the sequence occurs
strictly before its child. -/
def TopoOrdered (store : Store) (l : List Hash) : Prop :=
  l.Pairwise (fun a b => b ∉ parentsOf store a)

/-- Hash order is consistent with parenthood on `enum`: every parent's
hash sorts below its child's. -/
def ParentHashConsistent (store : Store) (enum : List Hash) : Prop :=
  ∀ a ∈ enum, ∀ b ∈ enum, a ∈ parentsOf store b → a < b

theorem insGoRev_perm (less : Hash → Hash → Bool) (x : Hash) (acc : List Hash) :
    (insGoRev less x acc).Perm (x :: acc) := by
  induction acc with
  | nil => exact List.Perm.refl _
  | cons h t ih =>
    by_cases hl : less x h = true
    · simp only [insGoRev, if_pos hl]
      exact ((ih.cons h).trans (List.Perm.swap x h t))
    · simp only [insGoRev, if_neg hl]
      exact List.Perm.refl _

theorem foldl_insGoRev_perm (less : Hash → Hash → Bool) (l acc : List Hash) :
    (l.foldl (fun a x => insGoRev less x a) acc).Perm (l ++ acc) := by
  induction l generalizing acc with
  | nil => exact List.Perm.refl _
  | cons x t ih =>
    rw [List.foldl_cons]
    have h1 := ih (insGoRev less x acc)
    have h2 : (t ++ insGoRev less x acc).Perm (t ++ (x :: acc)) :=
      List.Perm.append_left t (insGoRev_perm less x acc)
    have h3 : (t ++ (x :: acc)).Perm (x :: (t ++ acc)) := List.perm_middle
    exact (h1.trans h2).trans h3

theorem goInsertionSort_perm (less : Hash → Hash → Bool) (l : List Hash) :
    (goInsertionSort less l).Perm l := by
  unfold goInsertionSort
  have h1 := foldl_insGoRev_perm less l []
  rw [List.append_nil] at h1
  exact (List.reverse_perm _).trans h1

theorem insGoRev_pairwise (x : Hash) (acc : List Hash)
    (h : acc.Pairwise (fun a b => b ≤ a)) :
    (insGoRev natLt x acc).Pairwise (fun a b => b ≤ a) := by
  induction acc with
  | nil => simp [insGoRev]
  | cons hd t ih =>
    rw [List.pairwise_cons] at h
    by_cases hl : natLt x hd = true
    · have hxh : x < hd := by simpa [natLt] using hl
      simp only [insGoRev, if_pos hl]
      rw [List.pairwise_cons]
      refine ⟨?_, ih h.2⟩
      intro y hy
      have hy' : y ∈ x :: t := (insGoRev_perm natLt x t).mem_iff.mp hy
      cases hy' with
      | head => exact Nat.le_of_lt hxh
      | tail _ hyt => exact h.1 y hyt
    · have hhx : hd ≤ x := by
        have := (Bool.not_eq_true _).mp hl
        simp [natLt] at this
        exact this
      simp only [insGoRev, if_neg hl]
      rw [List.pairwise_cons]
      refine ⟨?_, List.pairwise_cons.mpr h⟩
      intro y hy
      cases hy with
      | head => exact hhx
      | tail _ hyt => exact Nat.le_trans (h.1 y hyt) hhx

theorem foldl_insGoRev_pairwise (l acc : List Hash)
    (h : acc.Pairwise (fun a b => b ≤ a)) :
    (l.foldl (fun a x => insGoRev natLt x a) acc).Pairwise (fun a b => b ≤ a) := by
  induction l generalizing acc with
  | nil => exact h
  | cons x t ih => exact ih _ (insGoRev_pairwise x acc h)

theorem goInsertionSort_natLt_sorted (l : List Hash) :
    (goInsertionSort natLt l).Sorted (· ≤ ·) := by
  unfold goInsertionSort
  rw [List.Sorted, List.pairwise_reverse]
  exact foldl_insGoRev_pairwise l [] (by simp)

theorem insGoRev_congr (f g : Hash → Hash → Bool) (x : Hash) (acc : List Hash)
    (hfg : ∀ h ∈ acc, f x h = g x h) :
    insGoRev f x acc = insGoRev g x acc := by
  induction acc with
  | nil => rfl
  | cons h t ih =>
    have hx := hfg h (List.mem_cons_self h t)
    simp only [insGoRev, hx, ih (fun y hy => hfg y (List.mem_cons_of_mem h hy))]

theorem foldl_insGoRev_congr (f g : Hash → Hash → Bool) (l acc : List Hash)
    (hfg : ∀ a ∈ l ++ acc, ∀ b ∈ l ++ acc, f a b = g a b) :
    l.foldl (fun a x => insGoRev f x a) acc
      = l.foldl (fun a x => insGoRev g x a) acc := by
  induction l generalizing acc with
  | nil => rfl
  | cons x t ih =>
    have hx : insGoRev f x acc = insGoRev g x acc := by
      refine insGoRev_congr f g x acc (fun h hh => ?_)
      exact hfg x (by simp) h (by simp [hh])
    rw [List.foldl_cons, List.foldl_cons, hx]
    refine ih (insGoRev g x acc) (fun a ha b hb => ?_)
    have hmem : ∀ y, y ∈ t ++ insGoRev g x acc → y ∈ (x :: t) ++ acc := by
      intro y hy
      rw [List.mem_append] at hy
      rw [List.cons_append, List.mem_cons, List.mem_append]
      cases hy with
      | inl h1 => exact Or.inr (Or.inl h1)
      | inr h2 =>
        have h4 := (insGoRev_perm g x acc).mem_iff.mp h2
        cases h4 with
        | head => exact Or.inl rfl
        | tail _ h3 => exact Or.inr (Or.inr h3)
    exact hfg a (hmem a ha) b (hmem b hb)

theorem cmpCommits_eq_natLt (store : Store) (enum : List Hash)
    (hcons : ParentHashConsistent store enum) :
    ∀ a ∈ enum, ∀ b ∈ enum, cmpCommits store a b = natLt a b := by
  intro a ha b hb
  unfold cmpCommits natLt
  cases hca : lookupCommit store a with
  | none => cases lookupCommit store b <;> rfl
  | some ca =>
    cases hcb : lookupCommit store b with
    | none => rfl
    | some cb =>
      by_cases hab : a ∈ cb.parents
      · have : a < b := hcons a ha b hb (by simp [parentsOf, hcb, hab])
        simp [hab, this]
      · by_cases hba : b ∈ ca.parents
        · have : b < a := hcons b hb a ha (by simp [parentsOf, hca, hba])
          simp [hab, hba, Nat.not_lt_of_gt this]
        · simp [hab, hba]

/-- Concrete three-commit chain used to refute C1: commit `1` has parent
`3`, commit `3` has parent `2`, commit `2` is a root; the grandparent
`2` has a larger hash than the grandchild `1`, so the comparator of
filter.go:137-157 is not transitive on this set. -/
def exStoreChain : Store :=
  [(1, ⟨0, [3], 0, 0, 0, 0⟩), (2, ⟨0, [], 0, 0, 0, 0⟩), (3, ⟨0, [2], 0, 0, 0, 0⟩)]

/-- C1 — counterexample: the order returned by `getAllCommitsTopological`
is neither topological nor independent of the run.  On `exStoreChain`,
with map-iteration order `[1, 3, 2]` (Go randomises map iteration, so
any order of the collected key set can occur in a run), Go's insertion
sort returns `[3, 1, 2]`, in which commit `3` precedes its own parent
`2`; iteration order `[1, 2, 3]` returns the different order
`[1, 2, 3]`, so two runs on the same repository can disagree. -/
theorem topoSortModel_counterexample :
    topoSortModel exStoreChain [1, 3, 2] = [3, 1, 2] ∧
    2 ∈ parentsOf exStoreChain 3 ∧
    ¬ TopoOrdered exStoreChain (topoSortModel exStoreChain [1, 3, 2]) ∧
    topoSortModel exStoreChain [1, 2, 3] ≠ topoSortModel exStoreChain [1, 3, 2] := by
  refine ⟨by decide, by decide, ?_, by decide⟩
  intro h
  rw [TopoOrdered, (by decide : topoSortModel exStoreChain [1, 3, 2] = [3, 1, 2])] at h
  rw [List.pairwise_cons] at h
  exact (h.1 2 (by decide)) (by decide)

/-- C1 — amended: the returned sequence is always a permutation of the
collected commit set, but it is a topological order, and is independent
of the map-iteration order, only under the extra assumption that the
hash order itself is consistent with parenthood (every parent's hash is
numerically below its child's); in that case the comparator degenerates
to the hash order and the output is the hash-sorted sequence. -/
theorem topoSortModel_spec (store : Store) (enum : List Hash) :
    (topoSortModel store enum).Perm enum ∧
    (ParentHashConsistent store enum →
      (topoSortModel store enum).Sorted (· ≤ ·) ∧
      TopoOrdered store (topoSortModel store enum) ∧
      ∀ enum', enum'.Perm enum → topoSortModel store enum' = topoSortModel store enum) := by
  have hperm : ∀ e : List Hash, (topoSortModel store e).Perm e :=
    fun e => goInsertionSort_perm (cmpCommits store) e
  refine ⟨hperm enum, fun hcons => ?_⟩
  have hkey : ∀ e : List Hash, (∀ a ∈ e, a ∈ enum) →
      topoSortModel store e = goInsertionSort natLt e := by
    intro e hsub
    unfold topoSortModel goInsertionSort
    rw [foldl_insGoRev_congr (cmpCommits store) natLt e []]
    intro a ha b hb
    rw [List.append_nil] at ha hb
    exact cmpCommits_eq_natLt store enum hcons a (hsub a ha) b (hsub b hb)
  have heq : topoSortModel store enum = goInsertionSort natLt enum :=
    hkey enum (fun a ha => ha)
  have hsorted : (topoSortModel store enum).Sorted (· ≤ ·) := by
    rw [heq]; exact goInsertionSort_natLt_sorted enum
  refine ⟨hsorted, ?_, ?_⟩
  · rw [TopoOrdered]
    have hmem : ∀ a ∈ topoSortModel store enum, a ∈ enum :=
      fun a ha => (hperm enum).mem_iff.mp ha
    refine List.Pairwise.imp_of_mem ?_ hsorted
    intro a b ha hb hle hpar
    have hba : b < a := hcons b (hmem b hb) a (hmem a ha) hpar
    exact Nat.lt_irrefl b (Nat.lt_of_lt_of_le hba hle)
  · intro enum' hperm'
    have hcons' : ∀ a ∈ enum', a ∈ enum := fun a ha => hperm'.mem_iff.mp ha
    have heq' : topoSortModel store enum' = goInsertionSort natLt enum' :=
      hkey enum' hcons'
    have hsorted' : (topoSortModel store enum').Sorted (· ≤ ·) := by
      rw [heq']; exact goInsertionSort_natLt_sorted enum'
    have hpp : (topoSortModel store enum').Perm (topoSortModel store enum) :=
      ((hperm enum').trans hperm').trans (hperm enum).symm
    exact List.eq_of_perm_of_sorted hpp hsorted' hsorted

/-- Witness for C1's amended theorem: a two-commit chain whose hash
order agrees with parenthood; both iteration orders sort to `[1, 2]`. -/
theorem topoSortModel_spec_witness :
    ParentHashConsistent [(1, ⟨0, [], 0, 0, 0, 0⟩), (2, ⟨0, [1], 0, 0, 0, 0⟩)] [2, 1] ∧
    topoSortModel [(1, ⟨0, [], 0, 0, 0, 0⟩), (2, ⟨0, [1], 0, 0, 0, 0⟩)] [1, 2]
      = topoSortModel [(1, ⟨0, [], 0, 0, 0, 0⟩), (2, ⟨0, [1], 0, 0, 0, 0⟩)] [2, 1] :=
  ⟨by unfold ParentHashConsistent; decide,
   ((topoSortModel_spec [(1, ⟨0, [], 0, 0, 0, 0⟩), (2, ⟨0, [1], 0, 0, 0, 0⟩)]
      [2, 1]).2 (by unfold ParentHashConsistent; decide)).2.2 [1, 2] (by decide)⟩

/-! ## Integrity scanner (fsck.go, `RunFsck`)

`RunFsck` first shells out to `git fsck --full` and pattern-matches its
text output (fsck.go:19-69); those parsed issues are environment input
to the model.  Its own go-git pass (fsck.go:72-148) then iterates the
references once and checks each non-symbolic reference's direct target
commit. -/

inductive IssueType
  | nullSHA | missingTree | missingCommit | brokenParent
deriving DecidableEq, Repr

/-- An issue (types.go:6-11).  `object` holds a reference name or a hash
depending on the kind (both rendered as strings in Go, opaque naturals
here); `commit` is the optional owning commit. -/
structure Issue where
  type   : IssueType
  object : Nat
  commit : Option Hash
deriving DecidableEq, Repr

inductive RefKind
  | branch | tag | headRef | replaceRef | otherRef
deriving DecidableEq, Repr

/-- A reference: name, kind (branch / tag / HEAD / `refs/replace/...` /
other), whether it is symbolic, and its target hash.  go-git reports a
zero target hash for symbolic references. -/
structure Ref where
  name     : Nat
  kind     : RefKind
  symbolic : Bool
  target   : Hash
deriving DecidableEq, Repr

/-- The per-reference body of `RunFsck`'s go-git pass (fsck.go:83-142):
skip symbolic refs; a zero target yields `NullSHA`; an unresolvable
target yields `MissingCommit`; otherwise the target commit's tree is
checked (`MissingTree`, owning commit recorded) and each ZeroHash
parent yields a `BrokenParent` issue keyed by the commit hash. -/
def fsckRefStep (commits : Store) (trees : List Hash) (r : Ref) : List Issue :=
  if r.symbolic then []
  else if r.target = zeroHash then [⟨.nullSHA, r.name, none⟩]
  else
    match lookupCommit commits r.target with
    | none => [⟨.missingCommit, r.target, none⟩]
    | some c =>
      (if c.tree ∈ trees then [] else [⟨.missingTree, c.tree, some r.target⟩])
        ++ c.parents.filterMap
          (fun p => if p = zeroHash then some ⟨.brokenParent, r.target, none⟩ else none)

/-- The whole go-git pass: issues accumulated over the reference list. -/
def fsckRefIssues (commits : Store) (trees : List Hash) (refs : List Ref) :
    List Issue :=
  refs.flatMap (fsckRefStep commits trees)

/-- `RunFsck` (fsck.go:16-149): issues parsed from the `git fsck`
subprocess output, followed by the go-git pass. -/
def runFsck (externalIssues : List Issue) (commits : Store) (trees : List Hash)
    (refs : List Ref) : List Issue :=
  externalIssues ++ fsckRefIssues commits trees refs

theorem mem_fsckRefStep (commits : Store) (trees : List Hash) (r : Ref)
    (i : Issue) :
    i ∈ fsckRefStep commits trees r ↔
      (r.symbolic = false ∧
        ((r.target = zeroHash ∧ i = ⟨.nullSHA, r.name, none⟩) ∨
         (r.target ≠ zeroHash ∧ lookupCommit commits r.target = none ∧
           i = ⟨.missingCommit, r.target, none⟩) ∨
         (r.target ≠ zeroHash ∧ ∃ c, lookupCommit commits r.target = some c ∧
           ((c.tree ∉ trees ∧ i = ⟨.missingTree, c.tree, some r.target⟩) ∨
            (zeroHash ∈ c.parents ∧ i = ⟨.brokenParent, r.target, none⟩))))) := by
  unfold fsckRefStep
  by_cases hs : r.symbolic
  · simp [hs]
  · simp only [Bool.not_eq_true] at hs
    rw [if_neg (by simp [hs])]
    by_cases hz : r.target = zeroHash
    · simp [hs, hz]
    · rw [if_neg hz]
      cases hc : lookupCommit commits r.target with
      | none => simp [hs, hz]
      | some c =>
        constructor
        · intro h
          rw [List.mem_append] at h
          refine ⟨hs, Or.inr (Or.inr ⟨hz, c, rfl, ?_⟩)⟩
          cases h with
          | inl h1 =>
            by_cases ht : c.tree ∈ trees
            · rw [if_pos ht] at h1
              cases h1
            · rw [if_neg ht, List.mem_singleton] at h1
              exact Or.inl ⟨ht, h1⟩
          | inr h2 =>
            rw [List.mem_filterMap] at h2
            obtain ⟨p, hp, hif⟩ := h2
            by_cases hpz : p = zeroHash
            · rw [if_pos hpz] at hif
              cases hif
              exact Or.inr ⟨hpz ▸ hp, rfl⟩
            · rw [if_neg hpz] at hif
              cases hif
        · rintro ⟨-, h⟩
          rcases h with ⟨hzz, -⟩ | ⟨-, hcn, -⟩ | ⟨-, c', hcc, hcase⟩
          · exact absurd hzz hz
          · exact Option.noConfusion hcn
          · have hcc' : c' = c := (Option.some.inj hcc).symm
            subst hcc'
            rw [List.mem_append]
            rcases hcase with ⟨ht, hi⟩ | ⟨hp, hi⟩
            · subst hi
              exact Or.inl (by rw [if_neg ht]; exact List.mem_singleton.mpr rfl)
            · subst hi
              refine Or.inr (List.mem_filterMap.mpr ⟨zeroHash, hp, ?_⟩)
              rw [if_pos rfl]

/-- C2 — amended: `RunFsck`'s go-git pass checks only the commits that
non-symbolic references point at directly — there is no reachability
walk and no visited set, so a commit pointed at by several references
is checked once per reference and ancestor commits are never visited.
An issue is emitted exactly when some non-symbolic reference has a zero
target (`NullSHA`), an unresolvable target (`MissingCommit`), a target
whose tree does not resolve (`MissingTree`), or a target with a
ZeroHash parent (`BrokenParent`); non-zero unresolvable parents produce
no issue. -/
theorem runFsck_issue_scope (externalIssues : List Issue) (commits : Store)
    (trees : List Hash) (refs : List Ref) (i : Issue) :
    i ∈ runFsck externalIssues commits trees refs ↔
      i ∈ externalIssues ∨
      ∃ r ∈ refs, r.symbolic = false ∧
        ((r.target = zeroHash ∧ i = ⟨.nullSHA, r.name, none⟩) ∨
         (r.target ≠ zeroHash ∧ lookupCommit commits r.target = none ∧
           i = ⟨.missingCommit, r.target, none⟩) ∨
         (r.target ≠ zeroHash ∧ ∃ c, lookupCommit commits r.target = some c ∧
           ((c.tree ∉ trees ∧ i = ⟨.missingTree, c.tree, some r.target⟩) ∨
            (zeroHash ∈ c.parents ∧ i = ⟨.brokenParent, r.target, none⟩)))) := by
  unfold runFsck fsckRefIssues
  rw [List.mem_append, List.mem_flatMap]
  constructor
  · intro h
    cases h with
    | inl h1 => exact Or.inl h1
    | inr h2 =>
      obtain ⟨r, hr, hi⟩ := h2
      exact Or.inr ⟨r, hr, (mem_fsckRefStep commits trees r i).mp hi⟩
  · intro h
    cases h with
    | inl h1 => exact Or.inl h1
    | inr h2 =>
      obtain ⟨r, hr, hi⟩ := h2
      exact Or.inr ⟨r, hr, (mem_fsckRefStep commits trees r i).mpr hi⟩

/-- Commit graph refuting C2: reference targets `5` and `7`; commit `5`
has parent `6` whose own tree `21` is unresolvable (a reachable commit
with a missing tree that the scanner never visits), and commit `7` has
the non-zero unresolvable parent `9`; commit `8` has a ZeroHash parent
and is the target of two references. -/
def c2exCommits : Store :=
  [(5, ⟨20, [6], 0, 0, 0, 0⟩), (6, ⟨21, [], 0, 0, 0, 0⟩),
   (7, ⟨20, [9], 0, 0, 0, 0⟩), (8, ⟨20, [0], 0, 0, 0, 0⟩)]

def c2exTrees : List Hash := [20]

/-- C2 — counterexample: with references pointing at commits `5` and
`7`, the go-git pass of `RunFsck` reports nothing at all, although the
reachable parent commit `6` has an unresolvable tree (the claim demands
a `MissingTree` issue for every reachable commit) and commit `7` has a
non-zero unresolvable parent (the claim demands a broken-parent issue);
moreover two references to commit `8` make its ZeroHash-parent issue
appear twice, not once per commit. -/
theorem runFsck_counterexample :
    fsckRefIssues c2exCommits c2exTrees
        [⟨100, .branch, false, 5⟩, ⟨101, .branch, false, 7⟩] = [] ∧
    6 ∈ parentsOf c2exCommits 5 ∧
    lookupCommit c2exCommits 6 = some ⟨21, [], 0, 0, 0, 0⟩ ∧
    21 ∉ c2exTrees ∧
    9 ∈ parentsOf c2exCommits 7 ∧ (9 : Hash) ≠ zeroHash ∧
    lookupCommit c2exCommits 9 = none ∧
    fsckRefIssues c2exCommits c2exTrees
        [⟨100, .branch, false, 8⟩, ⟨101, .branch, false, 8⟩]
      = [⟨.brokenParent, 8, none⟩, ⟨.brokenParent, 8, none⟩] := by
  refine ⟨by decide, by decide, by decide, by decide, by decide, by decide,
    by decide, by decide⟩

/-! ## Replacement planner (replace.go) -/

/-- types.go:48-49 (`EmptyTreeHash`): the standard git empty-tree hash
`4b825dc642cb6eb9a060e54bf8d69288fbee4904`, a fixed constant. -/
def emptyTreeHash : Hash := 0x4b825dc642cb6eb9a060e54bf8d69288fbee4904

/-- The fixed tool identity `NSHA Tool <nsha@fix.local>` used by
`createMinimalReplacement` (replace.go:127-131), opaque here. -/
def toolSignature : Nat := 424242

/-- A bad commit as handed to the planner (types.go:27-39), restricted
to the fields `ReplaceCommit` reads.  `parentHash = none` models the
empty `ParentHash` string; `some p` models a non-empty string, which
`plumbing.NewHash` parses to the hash `p` (a malformed string parses to
ZeroHash, i.e. `some 0`). -/
structure BadCommit where
  hash       : Hash
  parentHash : Option Hash
  message    : Nat
deriving DecidableEq, Repr

/-- `createMinimalReplacement` (replace.go:113-157): the staged commit
when the original cannot be loaded — empty tree (the constant; if the
empty-tree object is absent it is created, and content addressing
stores it at that same constant), the fixed tool identity with the
current wall-clock time `now`, the recorded message, and the recorded
parent whenever `ParentHash` is a non-empty string — with no zero-hash
or resolvability check (replace.go:140-142). -/
def createMinimalReplacement (now : Nat) (bc : BadCommit) : Commit :=
  { tree := emptyTreeHash,
    parents := bc.parentHash.toList,
    author := toolSignature,
    committer := toolSignature,
    committerWhen := now,
    message := bc.message }

/-- The staged replacement commit of `ReplaceCommit` (replace.go:41-110).
When the bad commit loads, the replacement keeps its author, committer
and message but always takes the empty tree (replace.go:55-74; the
original tree is never consulted), and keeps the recorded parent only
if it is non-empty, non-zero and resolves to a stored commit
(replace.go:77-84); when it does not load, `createMinimalReplacement`
runs.  Encoding, storing and pointing `refs/replace/<hash>` at the
result (replace.go:86-109) do not affect the staged content and are
not modelled. -/
def keepCheckedParent (commits : Store) (ph : Option Hash) : List Hash :=
  match ph with
  | some p =>
    if p = zeroHash then []
    else
      match lookupCommit commits p with
      | some _ => [p]
      | none => []
  | none => []

def replaceCommitPlan (commits : Store) (now : Nat) (bc : BadCommit) : Commit :=
  match lookupCommit commits bc.hash with
  | none => createMinimalReplacement now bc
  | some oldCommit =>
    { tree := emptyTreeHash,
      parents := keepCheckedParent commits bc.parentHash,
      author := oldCommit.author,
      committer := oldCommit.committer,
      committerWhen := oldCommit.committerWhen,
      message := oldCommit.message }

/-- C5 — counterexample: when the original commit cannot be loaded,
`createMinimalReplacement` keeps the recorded parent with no check at
all: a ZeroHash parent (non-empty all-zero string) and an unresolvable
parent both survive into the staged replacement, contradicting the
claim that both planner paths keep only non-zero resolvable parents. -/
theorem replaceParents_counterexample :
    lookupCommit [] 999 = none ∧
    (replaceCommitPlan [] 42 ⟨999, some zeroHash, 1⟩).parents = [zeroHash] ∧
    (replaceCommitPlan [] 42 ⟨999, some 77, 1⟩).parents = [77] ∧
    lookupCommit [] 77 = none := by
  exact ⟨rfl, rfl, rfl, rfl⟩

/-- C5 — amended: only the readable-original path of `ReplaceCommit`
filters parents (keeping the recorded parent exactly when it is
non-zero and resolves to a stored commit); `createMinimalReplacement`
keeps whatever single parent the BadCommit records, unchecked. -/
theorem replaceCommit_parents_spec (commits : Store) (now : Nat)
    (bc : BadCommit) :
    ((lookupCommit commits bc.hash).isSome →
      ∀ p ∈ (replaceCommitPlan commits now bc).parents,
        p ≠ zeroHash ∧ (lookupCommit commits p).isSome) ∧
    (lookupCommit commits bc.hash = none → ∀ p, bc.parentHash = some p →
      (replaceCommitPlan commits now bc).parents = [p]) := by
  constructor
  · intro hsome p hp
    cases hbc : lookupCommit commits bc.hash with
    | none => rw [hbc] at hsome; cases hsome
    | some oldCommit =>
      rw [replaceCommitPlan] at hp
      rw [hbc] at hp
      simp only [keepCheckedParent] at hp
      cases hph : bc.parentHash with
      | none => rw [hph] at hp; cases hp
      | some q =>
        rw [hph] at hp
        simp only at hp
        by_cases hqz : q = zeroHash
        · rw [if_pos hqz] at hp; cases hp
        · rw [if_neg hqz] at hp
          cases hq : lookupCommit commits q with
          | none => rw [hq] at hp; cases hp
          | some c =>
            rw [hq] at hp
            rw [List.mem_singleton] at hp
            subst hp
            exact ⟨hqz, by rw [hq]; rfl⟩
  · intro hnone p hph
    rw [replaceCommitPlan, hnone, createMinimalReplacement, hph]
    rfl

/-- Witness for C5's amended theorem: unreadable original `999` with
recorded parent `77`; the minimal replacement keeps `[77]`. -/
theorem replaceCommit_parents_spec_witness :
    lookupCommit [] 999 = none ∧
    (replaceCommitPlan [] 42 ⟨999, some 77, 1⟩).parents = [77] :=
  ⟨rfl, (replaceCommit_parents_spec [] 42 ⟨999, some 77, 1⟩).2 rfl 77 rfl⟩

/-- A tree entry as printed by `git cat-file -p` / `git ls-tree`
(one line `mode kind hash\tname`); the name is kept as characters
because fsck.go matches the raw line text. -/
structure TreeEntry where
  mode : Nat
  kind : Nat
  hash : Hash
  name : List Char
deriving DecidableEq, Repr

/-- Stored trees: hash → entry list. -/
abbrev Trees := List (Hash × List TreeEntry)

/-- C6 — counterexample: `ReplaceCommit` never keeps the bad commit's
own tree, healthy or not: for a readable commit whose tree `50`
resolves to a tree with no ZeroHash entries, the staged replacement's
tree is still the empty-tree constant, not `50`. -/
theorem replaceTree_counterexample :
    lookupCommit [(5, ⟨50, [], 0, 0, 0, 0⟩)] 5 = some ⟨50, [], 0, 0, 0, 0⟩ ∧
    lookupL 50 ([(50, [⟨100644, 1, 7, ['a']⟩])] : Trees)
      = some [⟨100644, 1, 7, ['a']⟩] ∧
    (⟨100644, 1, 7, ['a']⟩ : TreeEntry).hash ≠ zeroHash ∧
    (replaceCommitPlan [(5, ⟨50, [], 0, 0, 0, 0⟩)] 42 ⟨5, none, 1⟩).tree
      = emptyTreeHash ∧
    (50 : Hash) ≠ emptyTreeHash := by
  refine ⟨rfl, rfl, by decide, rfl, by decide⟩

/-- C6 — amended: the tree of every replacement staged by
`ReplaceCommit` (both planner paths) is the empty-tree constant,
regardless of whether the original tree is healthy. -/
theorem replaceCommit_tree_spec (commits : Store) (now : Nat)
    (bc : BadCommit) :
    (replaceCommitPlan commits now bc).tree = emptyTreeHash := by
  rw [replaceCommitPlan]
  cases lookupCommit commits bc.hash with
  | none => rfl
  | some oldCommit => rfl

/-! ## Tree sanitizer (fsck.go, `FixTreeCorruptionWithGitCommands`)

For each corrupted tree, fsck.go:879-908 reads the tree's printed
entry lines (`git cat-file -p`, falling back to `git ls-tree`);
fsck.go:910-970 then drops every line containing the 40-zero string
and rebuilds the tree with `git mktree`, or reuses `EmptyTreeHash`.
The model takes the parsed entry lines (`none` = the tree could not be
read by either command). -/

/-- Does the list start with `n` consecutive `'0'` characters? -/
def startsWithZeros : Nat → List Char → Bool
  | 0, _ => true
  | _ + 1, [] => false
  | n + 1, c :: t => c == '0' && startsWithZeros n t

/-- Does the name contain a run of 40 `'0'` characters?  (On a printed
entry line `mode kind hash\tname`, the line contains the all-zero hash
string exactly when the entry hash is ZeroHash — a fixed-width 40-hex
field contains 40 zeros only by being all zeros — or when the name
itself contains such a run; mode, kind and the tab separator cannot
take part in one.) -/
def containsZeroRun : List Char → Bool
  | [] => false
  | c :: t => startsWithZeros 40 (c :: t) || containsZeroRun t

/-- `strings.Contains(line, "00…0")` of fsck.go:922 on one entry line. -/
def lineHasNull (e : TreeEntry) : Bool :=
  decide (e.hash = zeroHash) || containsZeroRun e.name

/-- The per-tree replacement computed at fsck.go:879-970, on parsed
entries.  `none` input: the tree is unreadable and is replaced by the
empty tree.  Readable input: the lines matching the zero-run check are
dropped; if none matched, the tree is skipped (`continue`, modelled as
`none` output); if all matched, the result is the empty tree. -/
def fixTree : Option (List TreeEntry) → Option (List TreeEntry)
  | none => some []
  | some entries =>
    let nullEntriesFound := (entries.filter (fun e => lineHasNull e)).length
    if nullEntriesFound = 0 then none
    else some (entries.filter (fun e => !(lineHasNull e)))

/-- Injective encoding of an entry (stand-in for its mktree bytes). -/
def encodeEntry (e : TreeEntry) : Nat :=
  Nat.pair e.mode (Nat.pair e.kind
    (Nat.pair e.hash (encodeList (e.name.map Char.toNat))))

/-- Content address of the rebuilt tree: `git mktree` on the surviving
entries; the empty entry list is content-addressed to the well-known
`EmptyTreeHash` constant (fsck.go:898, 948 both reuse the constant). -/
def treeHashOf (entries : List TreeEntry) : Hash :=
  match entries with
  | [] => emptyTreeHash
  | e :: t => encodeList ((e :: t).map encodeEntry) + emptyTreeHash + 1

theorem all_congr_mem {α : Type} (p q : α → Bool) (l : List α)
    (h : ∀ a ∈ l, p a = q a) : l.all p = l.all q := by
  induction l with
  | nil => rfl
  | cons a t ih =>
    rw [List.all_cons, List.all_cons, h a (List.mem_cons_self a t),
      ih (fun b hb => h b (List.mem_cons_of_mem a hb))]

/-- C7 — counterexample: the sanitizer drops lines, not ZeroHash
entries.  A healthy entry (hash `9`) whose *name* is forty `'0'`
characters makes its printed line contain the all-zero hash string, so
it is dropped alongside the genuine ZeroHash entry; the claimed result
— exactly the entries with non-zero hash, i.e. that entry and the
`'b'` entry — differs from what the code produces. -/
theorem fixTree_counterexample :
    fixTree (some [⟨100644, 1, 0, ['a']⟩,
        ⟨100644, 1, 9, List.replicate 40 '0'⟩, ⟨100644, 1, 7, ['b']⟩])
      = some [⟨100644, 1, 7, ['b']⟩] ∧
    (⟨100644, 1, 9, List.replicate 40 '0'⟩ : TreeEntry).hash ≠ zeroHash ∧
    some [⟨100644, 1, 7, ['b']⟩]
      ≠ some [(⟨100644, 1, 9, List.replicate 40 '0'⟩ : TreeEntry),
          ⟨100644, 1, 7, ['b']⟩] := by
  refine ⟨by decide, by decide, by decide⟩

/-- C7 — amended: sanitization is total and order-preserving over
*lines*: an unreadable tree becomes the empty tree, whose hash is the
single well-known constant; a readable tree keeps, in original order
and with unchanged attributes (the result is a sublist of the input),
exactly the entries whose printed line does not contain the 40-zero
string — that is, the non-ZeroHash entries, except that a healthy
entry whose name contains a 40-zero run is also dropped; when no line
matches the tree is skipped, and when every line matches the empty
tree constant is reused. -/
theorem fixTree_spec (entries : List TreeEntry) :
    (fixTree none = some [] ∧ treeHashOf [] = emptyTreeHash) ∧
    fixTree (some entries)
      = (if entries.all (fun e => !(lineHasNull e)) then none
         else some (entries.filter (fun e => !(lineHasNull e)))) ∧
    (∀ l, fixTree (some entries) = some l → l.Sublist entries) ∧
    ((∀ e ∈ entries, containsZeroRun e.name = false) →
      fixTree (some entries)
        = (if entries.all (fun e => decide (e.hash ≠ zeroHash)) then none
           else some (entries.filter (fun e => decide (e.hash ≠ zeroHash))))) := by
  have hmain : fixTree (some entries)
      = (if entries.all (fun e => !(lineHasNull e)) then none
         else some (entries.filter (fun e => !(lineHasNull e)))) := by
    rw [fixTree]
    by_cases hz : (entries.filter (fun e => lineHasNull e)).length = 0
    · rw [if_pos hz]
      have : entries.all (fun e => !(lineHasNull e)) = true := by
        rw [List.all_eq_true]
        intro e he
        rw [List.length_eq_zero, List.filter_eq_nil_iff] at hz
        simp [hz e he]
      rw [if_pos this]
    · rw [if_neg hz]
      have : ¬ entries.all (fun e => !(lineHasNull e)) = true := by
        intro hall
        apply hz
        rw [List.length_eq_zero, List.filter_eq_nil_iff]
        intro e he
        have := List.all_eq_true.mp hall e he
        simp at this
        simp [this]
      rw [if_neg this]
  refine ⟨⟨rfl, rfl⟩, hmain, ?_, ?_⟩
  · intro l hl
    rw [hmain] at hl
    by_cases hc : entries.all (fun e => !(lineHasNull e)) = true
    · rw [if_pos hc] at hl; cases hl
    · rw [if_neg hc] at hl
      cases hl
      exact List.filter_sublist entries
  · intro hname
    rw [hmain]
    have hpt : ∀ e ∈ entries, (!(lineHasNull e)) = decide (e.hash ≠ zeroHash) := by
      intro e he
      rw [lineHasNull, hname e he, Bool.or_false, ← decide_not]
    rw [all_congr_mem _ _ entries hpt, List.filter_congr hpt]

/-! ## updateAllReferences (filter.go:243-297)

The code runs in two phases — collect the refs to update, then one
`SetReference` per collected ref — so with distinct reference names the
net effect is the per-reference update below; each updated reference
receives exactly one assignment, from its old hash directly to the
mapped hash. -/

/-- Whether a reference is repointed, and to what (filter.go:256-277):
replace refs are skipped, only branches and tags are considered, and a
ref is updated exactly when its current target is a key of the overlay. -/
def refUpdateTarget (m : Overlay) (r : Ref) : Option Hash :=
  if r.kind = .replaceRef then none
  else if r.kind = .branch ∨ r.kind = .tag then lookupL r.target m
  else none

/-- The new value of one reference after the update pass. -/
def updateRef (m : Overlay) (r : Ref) : Ref :=
  match refUpdateTarget m r with
  | some nh => { r with target := nh }
  | none => r

/-- `updateAllReferences`: every reference after the update pass. -/
def updateAllReferences (m : Overlay) (refs : List Ref) : List Ref :=
  refs.map (updateRef m)

theorem lookupL_mem {β : Type} (k : Nat) (v : β) (l : List (Nat × β))
    (h : lookupL k l = some v) : (k, v) ∈ l := by
  induction l with
  | nil => cases h
  | cons e t ih =>
    rw [lookupL] at h
    by_cases he : e.1 = k
    · rw [if_pos he] at h
      cases h
      have hkv : (k, e.2) = e := by rw [← he]
      rw [hkv]
      exact List.mem_cons_self e t
    · rw [if_neg he] at h
      exact List.mem_cons_of_mem e (ih h)

theorem updateRef_spec (m : Overlay) (r : Ref)
    (hfin : ∀ e ∈ m, lookupL e.2 m = none) :
    (updateRef m r).name = r.name ∧ (updateRef m r).kind = r.kind ∧
    (updateRef m r).symbolic = r.symbolic ∧
    (r.kind = .replaceRef → updateRef m r = r) ∧
    (¬(r.kind = .branch ∨ r.kind = .tag) → updateRef m r = r) ∧
    (lookupL r.target m = none → updateRef m r = r) ∧
    ((r.kind = .branch ∨ r.kind = .tag) →
      ∀ nh, lookupL r.target m = some nh →
        (updateRef m r).target = nh ∧
        lookupL (updateRef m r).target m = none) := by
  by_cases hrep : r.kind = RefKind.replaceRef
  · have hru : refUpdateTarget m r = none := by
      rw [refUpdateTarget, if_pos hrep]
    have hr : updateRef m r = r := by rw [updateRef, hru]
    rw [hr]
    refine ⟨rfl, rfl, rfl, fun _ => rfl, fun _ => rfl, fun _ => rfl, ?_⟩
    intro hbt
    cases hbt with
    | inl hb => rw [hb] at hrep; cases hrep
    | inr ht => rw [ht] at hrep; cases hrep
  · by_cases hbt : r.kind = RefKind.branch ∨ r.kind = RefKind.tag
    · cases hl : lookupL r.target m with
      | none =>
        have hru : refUpdateTarget m r = none := by
          rw [refUpdateTarget, if_neg hrep, if_pos hbt, hl]
        have hr : updateRef m r = r := by rw [updateRef, hru]
        rw [hr]
        refine ⟨rfl, rfl, rfl, fun _ => rfl, fun _ => rfl, fun _ => rfl, ?_⟩
        intro _ nh hl'
        exact Option.noConfusion hl'
      | some nh0 =>
        have hru : refUpdateTarget m r = some nh0 := by
          rw [refUpdateTarget, if_neg hrep, if_pos hbt, hl]
        have hr : updateRef m r = { r with target := nh0 } := by
          rw [updateRef, hru]
        rw [hr]
        refine ⟨rfl, rfl, rfl, fun h => absurd h hrep, fun h => absurd hbt h,
          fun h => Option.noConfusion h, ?_⟩
        intro _ nh hl'
        cases hl'
        exact ⟨rfl, hfin (r.target, nh0) (lookupL_mem r.target nh0 m hl)⟩
    · have hru : refUpdateTarget m r = none := by
        rw [refUpdateTarget, if_neg hrep, if_neg hbt]
      have hr : updateRef m r = r := by rw [updateRef, hru]
      rw [hr]
      exact ⟨rfl, rfl, rfl, fun _ => rfl, fun _ => rfl, fun _ => rfl,
        fun h => absurd h hbt⟩

/-- C8 — after the walk, `updateAllReferences` repoints every branch
and tag reference whose target is a key of the overlay to its mapped
hash, and leaves every other reference — replace refs, non-branch/tag
refs, and refs whose target is not a key — untouched.  Each updated
reference receives a single assignment from its old hash to the mapped
hash, and under the overlay discipline of the rewrite (values of the
overlay are never themselves keys, hypothesis `hfin`) that hash is
final: it is not mapped any further. -/
theorem updateAllReferences_spec (m : Overlay) (refs : List Ref)
    (hfin : ∀ e ∈ m, lookupL e.2 m = none) :
    List.Forall₂ (fun r r' =>
      r'.name = r.name ∧ r'.kind = r.kind ∧ r'.symbolic = r.symbolic ∧
      (r.kind = .replaceRef → r' = r) ∧
      (¬(r.kind = .branch ∨ r.kind = .tag) → r' = r) ∧
      (lookupL r.target m = none → r' = r) ∧
      ((r.kind = .branch ∨ r.kind = .tag) →
        ∀ nh, lookupL r.target m = some nh →
          r'.target = nh ∧ lookupL r'.target m = none))
      refs (updateAllReferences m refs) := by
  induction refs with
  | nil => exact List.Forall₂.nil
  | cons r t ih => exact List.Forall₂.cons (updateRef_spec m r hfin) ih

/-- Witness for C8 at a concrete input: overlay `10 ↦ 20` whose value
is not a key, a branch at `10` (updated), a tag at `11` (untouched) and
a replace ref at `10` (untouched). -/
theorem updateAllReferences_spec_witness :
    (∀ e ∈ ([(10, 20)] : Overlay), lookupL e.2 [(10, 20)] = none) ∧
    List.Forall₂ (fun r r' =>
      r'.name = r.name ∧ r'.kind = r.kind ∧ r'.symbolic = r.symbolic ∧
      (r.kind = .replaceRef → r' = r) ∧
      (¬(r.kind = .branch ∨ r.kind = .tag) → r' = r) ∧
      (lookupL r.target [(10, 20)] = none → r' = r) ∧
      ((r.kind = .branch ∨ r.kind = .tag) →
        ∀ nh, lookupL r.target [(10, 20)] = some nh →
          r'.target = nh ∧ lookupL r'.target [(10, 20)] = none))
      [⟨0, .branch, false, 10⟩, ⟨1, .tag, false, 11⟩, ⟨2, .replaceRef, false, 10⟩]
      (updateAllReferences [(10, 20)]
        [⟨0, .branch, false, 10⟩, ⟨1, .tag, false, 11⟩, ⟨2, .replaceRef, false, 10⟩]) :=
  ⟨by decide,
   updateAllReferences_spec [(10, 20)]
     [⟨0, .branch, false, 10⟩, ⟨1, .tag, false, 11⟩, ⟨2, .replaceRef, false, 10⟩]
     (by decide)⟩

/-! ## walkCommits (filter.go:164-182) and cycles

`walkCommits` recurses through parent links, marking each visited hash
in the shared visited map before anything else; the model threads the
visited list through and returns it.  Go's call stack is modelled by a
fuel parameter that every call decrements: `none` means the fuel ran
out, and `walkCommits_spec` shows this cannot happen once the fuel
reaches an explicit bound in the number of stored-but-unvisited
commits — the visited check terminates the recursion even on cyclic
graphs.  The boolean result is `false` exactly when the Go function
returns an error, which happens only when the commit at `h` itself
cannot be read (filter.go:171-174); error results of the recursive
parent walks are discarded (filter.go:177-179), and
`getAllCommitsTopological` discards even the top-level error
(filter.go:122-128, `continue`). -/

mutual

def walkCommits (commits : Store) : Nat → Hash → List Hash →
    Option (List Hash × Bool)
  | 0, _, _ => none
  | fuel + 1, h, visited =>
    if h ∈ visited then some (visited, true)
    else
      match lookupCommit commits h with
      | none => some (h :: visited, false)
      | some c =>
        match walkParents commits fuel c.parents (h :: visited) with
        | none => none
        | some vis => some (vis, true)

def walkParents (commits : Store) : Nat → List Hash → List Hash →
    Option (List Hash)
  | 0, _, _ => none
  | _ + 1, [], vis => some vis
  | fuel + 1, p :: ps, vis =>
    match walkCommits commits fuel p vis with
    | none => none
    | some (vis', _) => walkParents commits fuel ps vis'

end

/-- The number of stored commit hashes not yet visited: the measure
that shrinks as the walk marks commits. -/
def unvisitedKeys (commits : Store) (visited : List Hash) : Nat :=
  ((commits.map Prod.fst).dedup.filter (fun k => !(decide (k ∈ visited)))).length

/-- The longest parent list of any stored commit. -/
def maxParents (commits : Store) : Nat :=
  (commits.map (fun e => e.2.parents.length)).foldr max 0

theorem filter_length_mono {α : Type} (l : List α) (p q : α → Bool)
    (h : ∀ x ∈ l, p x = true → q x = true) :
    (l.filter p).length ≤ (l.filter q).length := by
  induction l with
  | nil => exact Nat.le_refl _
  | cons a t ih =>
    have ih' := ih (fun x hx => h x (List.mem_cons_of_mem a hx))
    by_cases hp : p a = true
    · rw [List.filter_cons_of_pos hp,
        List.filter_cons_of_pos (h a (List.mem_cons_self a t) hp)]
      exact Nat.succ_le_succ ih'
    · rw [List.filter_cons_of_neg (by simpa using hp)]
      by_cases hq : q a = true
      · rw [List.filter_cons_of_pos hq]
        exact Nat.le_succ_of_le ih'
      · rw [List.filter_cons_of_neg (by simpa using hq)]
        exact ih'

theorem filter_length_strict {α : Type} (l : List α) (p q : α → Bool)
    (h : ∀ x ∈ l, p x = true → q x = true) (x0 : α) (hx0 : x0 ∈ l)
    (hq0 : q x0 = true) (hp0 : p x0 = false) :
    (l.filter p).length < (l.filter q).length := by
  induction l with
  | nil => cases hx0
  | cons a t ih =>
    have hmono := filter_length_mono t p q
      (fun x hx => h x (List.mem_cons_of_mem a hx))
    cases hx0 with
    | head =>
      rw [List.filter_cons_of_neg (by simp [hp0]), List.filter_cons_of_pos hq0]
      exact Nat.lt_succ_of_le hmono
    | tail _ hx0' =>
      have ih' := ih (fun x hx => h x (List.mem_cons_of_mem a hx)) hx0'
      by_cases hp : p a = true
      · rw [List.filter_cons_of_pos hp,
          List.filter_cons_of_pos (h a (List.mem_cons_self a t) hp)]
        exact Nat.succ_lt_succ ih'
      · rw [List.filter_cons_of_neg (by simpa using hp)]
        by_cases hq : q a = true
        · rw [List.filter_cons_of_pos hq]
          exact Nat.lt_succ_of_lt ih'
        · rw [List.filter_cons_of_neg (by simpa using hq)]
          exact ih'

theorem unvisitedKeys_mono (commits : Store) (vis vis' : List Hash)
    (hsub : ∀ x ∈ vis, x ∈ vis') :
    unvisitedKeys commits vis' ≤ unvisitedKeys commits vis := by
  refine filter_length_mono _ _ _ ?_
  intro k _ hk
  simp only [Bool.not_eq_true', decide_eq_false_iff_not] at hk ⊢
  exact fun hmem => hk (hsub k hmem)

theorem unvisitedKeys_strict (commits : Store) (vis : List Hash) (h : Hash)
    (c : Commit) (hc : lookupCommit commits h = some c) (hvis : h ∉ vis) :
    unvisitedKeys commits (h :: vis) < unvisitedKeys commits vis := by
  refine filter_length_strict _ _ _ ?_ h ?_ ?_ ?_
  · intro k _ hk
    simp only [Bool.not_eq_true', decide_eq_false_iff_not, List.mem_cons] at hk ⊢
    exact fun hmem => hk (Or.inr hmem)
  · rw [List.mem_dedup]
    exact List.mem_map.mpr ⟨(h, c), lookupL_mem h c commits hc, rfl⟩
  · simp [hvis]
  · simp

theorem parents_length_le_maxParents (commits : Store) (h : Hash) (c : Commit)
    (hc : lookupCommit commits h = some c) :
    c.parents.length ≤ maxParents commits := by
  have hmem : c.parents.length ∈ commits.map (fun e => e.2.parents.length) :=
    List.mem_map.mpr ⟨(h, c), lookupL_mem h c commits hc, rfl⟩
  rw [maxParents]
  generalize commits.map (fun e => e.2.parents.length) = l at hmem
  clear hc
  induction l with
  | nil => cases hmem
  | cons a t ih =>
    rw [List.foldr_cons]
    cases hmem with
    | head => exact Nat.le_max_left _ _
    | tail _ hm => exact Nat.le_trans (ih hm) (Nat.le_max_right _ _)

/-- Joint fuel-adequacy for the walk: with fuel at least
`(unvisited + 1) * (maxParents + 2)` the commit walk completes (and
with the extra `ps.length + 1` budget so does a parent-list walk), in
both cases only ever growing the visited set. -/
theorem walk_total_aux (commits : Store) : ∀ fuel : Nat,
    (∀ h vis,
      (unvisitedKeys commits vis + 1) * (maxParents commits + 2) ≤ fuel →
      ∃ out, walkCommits commits fuel h vis = some out ∧
        ∀ x ∈ vis, x ∈ out.1) ∧
    (∀ ps vis, ps.length ≤ maxParents commits →
      (unvisitedKeys commits vis + 1) * (maxParents commits + 2)
          + ps.length + 1 ≤ fuel →
      ∃ vis', walkParents commits fuel ps vis = some vis' ∧
        ∀ x ∈ vis, x ∈ vis') := by
  intro fuel
  induction fuel with
  | zero =>
    constructor
    · intro h vis hle
      rw [Nat.le_zero, Nat.mul_eq_zero] at hle
      omega
    · intro ps vis _ hle
      omega
  | succ fuel ih =>
    constructor
    · intro h vis hle
      rw [walkCommits]
      by_cases hv : h ∈ vis
      · exact ⟨(vis, true), by rw [if_pos hv], fun x hx => hx⟩
      · rw [if_neg hv]
        cases hc : lookupCommit commits h with
        | none =>
          exact ⟨(h :: vis, false), rfl, fun x hx => List.mem_cons_of_mem h hx⟩
        | some c =>
          have hstrict := unvisitedKeys_strict commits vis h c hc hv
          have hpl := parents_length_le_maxParents commits h c hc
          have hle' : (unvisitedKeys commits (h :: vis) + 1)
              * (maxParents commits + 2) + c.parents.length + 1 ≤ fuel := by
            have hm1 : (unvisitedKeys commits (h :: vis) + 1)
                * (maxParents commits + 2)
                ≤ unvisitedKeys commits vis * (maxParents commits + 2) :=
              Nat.mul_le_mul_right _ (by omega)
            have hm2 : (unvisitedKeys commits vis + 1)
                * (maxParents commits + 2)
                = unvisitedKeys commits vis * (maxParents commits + 2)
                  + (maxParents commits + 2) := by ring
            omega
          obtain ⟨vis', hwp, hsub⟩ := ih.2 c.parents (h :: vis) hpl hle'
          have hred : (match walkParents commits fuel c.parents (h :: vis) with
              | none => none
              | some vis => some (vis, true))
              = some (vis', true) := by rw [hwp]
          exact ⟨(vis', true), hred,
            fun x hx => hsub x (List.mem_cons_of_mem h hx)⟩
    · intro ps vis hlen hle
      cases ps with
      | nil => exact ⟨vis, by rw [walkParents], fun x hx => hx⟩
      | cons p ps =>
        have hlen' : (p :: ps).length = ps.length + 1 := rfl
        have hle1 : (unvisitedKeys commits vis + 1)
            * (maxParents commits + 2) ≤ fuel := by omega
        obtain ⟨out, hwc, hsub1⟩ := ih.1 p vis hle1
        have hu : unvisitedKeys commits out.1 ≤ unvisitedKeys commits vis :=
          unvisitedKeys_mono commits vis out.1 hsub1
        have hle2 : (unvisitedKeys commits out.1 + 1)
            * (maxParents commits + 2) + ps.length + 1 ≤ fuel := by
          have hm : (unvisitedKeys commits out.1 + 1) * (maxParents commits + 2)
              ≤ (unvisitedKeys commits vis + 1) * (maxParents commits + 2) :=
            Nat.mul_le_mul_right _ (by omega)
          omega
        obtain ⟨vis2, hwp2, hsub2⟩ := ih.2 ps out.1 (by omega) hle2
        refine ⟨vis2, ?_, fun x hx => hsub2 x (hsub1 x hx)⟩
        rw [walkParents, hwc]
        exact hwp2

/-- C9 — amended: on any commit graph, cyclic or not, the walk behind
`getAllCommitsTopological` terminates — with fuel at least
`(unvisited + 1) * (maxParents + 2)` it never exhausts its budget,
because each commit is marked visited before its parents are followed
— but no cycle is detected and no error is raised for one: the walk
reports an error (`false`) exactly when the start commit itself is
unreadable and not yet visited, and otherwise silently continues,
rather than aborting the branch with an unrecoverable error as the
claim demands. -/
theorem walkCommits_spec (commits : Store) (fuel : Nat) (h : Hash)
    (vis : List Hash)
    (hfuel : (unvisitedKeys commits vis + 1) * (maxParents commits + 2) ≤ fuel) :
    ∃ vis' flag, walkCommits commits fuel h vis = some (vis', flag) ∧
      (flag = false ↔ (h ∉ vis ∧ lookupCommit commits h = none)) := by
  cases fuel with
  | zero =>
    rw [Nat.le_zero, Nat.mul_eq_zero] at hfuel
    omega
  | succ fuel =>
    rw [walkCommits]
    by_cases hv : h ∈ vis
    · rw [if_pos hv]
      exact ⟨vis, true, rfl, by simp [hv]⟩
    · rw [if_neg hv]
      cases hc : lookupCommit commits h with
      | none => exact ⟨h :: vis, false, rfl, by simp [hv]⟩
      | some c =>
        have hstrict := unvisitedKeys_strict commits vis h c hc hv
        have hpl := parents_length_le_maxParents commits h c hc
        have hle' : (unvisitedKeys commits (h :: vis) + 1)
            * (maxParents commits + 2) + c.parents.length + 1 ≤ fuel := by
          have hm1 : (unvisitedKeys commits (h :: vis) + 1)
              * (maxParents commits + 2)
              ≤ unvisitedKeys commits vis * (maxParents commits + 2) :=
            Nat.mul_le_mul_right _ (by omega)
          have hm2 : (unvisitedKeys commits vis + 1) * (maxParents commits + 2)
              = unvisitedKeys commits vis * (maxParents commits + 2)
                + (maxParents commits + 2) := by ring
          omega
        obtain ⟨vis', hwp, -⟩ := (walk_total_aux commits fuel).2 c.parents
          (h :: vis) hpl hle'
        have hred : (match walkParents commits fuel c.parents (h :: vis) with
            | none => none
            | some vis => some (vis, true))
            = some (vis', true) := by rw [hwp]
        exact ⟨vis', true, hred, by simp [hc]⟩

/-- A two-commit cycle: `1` and `2` are each other's parent. -/
def exStoreCycle : Store :=
  [(1, ⟨0, [2], 0, 0, 0, 0⟩), (2, ⟨0, [1], 0, 0, 0, 0⟩)]

/-- C9 — counterexample to the abort half of the claim: on the cyclic
graph `exStoreCycle` the walk returns successfully (`true`, no error)
with both commits visited; nothing detects the cycle and nothing
aborts. -/
theorem walkCommits_cycle_counterexample :
    1 ∈ parentsOf exStoreCycle 2 ∧ 2 ∈ parentsOf exStoreCycle 1 ∧
    walkCommits exStoreCycle 9 1 [] = some ([2, 1], true) := by
  refine ⟨by decide, by decide, by decide⟩

/-- Witness for C9's amended theorem at a concrete input: the cyclic
store, start commit `1`, empty visited set, fuel `9`. -/
theorem walkCommits_spec_witness :
    (unvisitedKeys exStoreCycle [] + 1) * (maxParents exStoreCycle + 2) ≤ 9 ∧
    ∃ vis' flag, walkCommits exStoreCycle 9 1 [] = some (vis', flag) ∧
      (flag = false ↔ ((1 : Hash) ∉ ([] : List Hash) ∧
        lookupCommit exStoreCycle 1 = none)) :=
  ⟨by decide, walkCommits_spec exStoreCycle 9 1 [] (by decide)⟩

/-! ## FixMissingCommits (fsck.go:1141-1245)

The function collects every reference whose target does not load as a
commit, then fixes them one by one, re-reading the repository state
each time (`findValidReference` / `findMostRecentValidCommit` consult
the current references).  Reference names are opaque naturals; `HEAD`
and the three well-known branch names probed by `findValidReference`
(fsck.go:513, `refs/heads/main`, `refs/heads/master`,
`refs/heads/develop`) are fixed constants.  A symbolic reference
reports `ZeroHash` as its hash, as in go-git. -/

/-- What a reference file holds: `ref: <name>` or a hash. -/
inductive RefTarget
  | symbolicTo (name : Nat)
  | hashAt (h : Hash)
deriving DecidableEq, Repr

structure RefEntry where
  name     : Nat
  isBranch : Bool
  target   : RefTarget
deriving DecidableEq, Repr

def headName : Nat := 0
def mainName : Nat := 1
def masterName : Nat := 2
def developName : Nat := 3

/-- `ref.Hash()`: zero for a symbolic reference. -/
def resolveHash : RefTarget → Hash
  | .symbolicTo _ => zeroHash
  | .hashAt h => h

/-- `repo.Reference(name, true)` on the reference list. -/
def lookupRef (refs : List RefEntry) (n : Nat) : Option RefEntry :=
  refs.find? (fun r => r.name == n)

/-- One probe of fsck.go:515-520: the named reference exists and its
hash is not the null SHA. -/
def validBranchNamed (refs : List RefEntry) (n : Nat) : Bool :=
  match lookupRef refs n with
  | some r => decide (resolveHash r.target ≠ zeroHash)
  | none => false

/-- `findValidReference` (fsck.go:511-542): try
main / master / develop first, then any branch with a non-zero hash. -/
def findValidReference (refs : List RefEntry) : Option Nat :=
  match [mainName, masterName, developName].find?
      (fun n => validBranchNamed refs n) with
  | some n => some n
  | none =>
    (refs.find? (fun r => r.isBranch && decide (resolveHash r.target ≠ zeroHash))).map
      (fun r => r.name)

/-- `findMostRecentValidCommit` (fsck.go:545-571): over all branch refs
with a non-zero hash whose commit loads, keep the one with the
strictly latest committer time (`When.After`); returns hash and
commit. -/
def mrvcStep (commits : Store) (acc : Option (Hash × Commit))
    (r : RefEntry) : Option (Hash × Commit) :=
  if r.isBranch && decide (resolveHash r.target ≠ zeroHash) then
    match lookupCommit commits (resolveHash r.target) with
    | some c =>
      match acc with
      | none => some (resolveHash r.target, c)
      | some (h0, c0) =>
        if c0.committerWhen < c.committerWhen then some (resolveHash r.target, c)
        else some (h0, c0)
    | none => acc
  else acc

def findMostRecentValidCommit (commits : Store) (refs : List RefEntry) :
    Option (Hash × Commit) :=
  refs.foldl (mrvcStep commits) none

/-- `os.WriteFile(".git/<n>", t)` for a name already present: update
the entry's target in place (every name fixed by `FixMissingCommits`
comes from the collected reference list, so it is present). -/
def setRefTarget (refs : List RefEntry) (n : Nat) (t : RefTarget) :
    List RefEntry :=
  refs.map (fun r => if r.name = n then { r with target := t } else r)

/-- `os.Remove(".git/<n>")`. -/
def removeRef (refs : List RefEntry) (n : Nat) : List RefEntry :=
  refs.filter (fun r => !(r.name == n))

/-- The per-reference fix of fsck.go:1179-1242: `HEAD` is repointed to
a valid branch, else to the most recent valid commit (detached), else
left alone — never removed; any other reference is repointed to the
most recent valid commit, or removed when none exists. -/
def fixStep (commits : Store) (refs : List RefEntry) (n : Nat) :
    List RefEntry :=
  if n = headName then
    match findValidReference refs with
    | some b => setRefTarget refs headName (.symbolicTo b)
    | none =>
      match findMostRecentValidCommit commits refs with
      | some hc => setRefTarget refs headName (.hashAt hc.1)
      | none => refs
  else
    match findMostRecentValidCommit commits refs with
    | some hc => setRefTarget refs n (.hashAt hc.1)
    | none => removeRef refs n

/-- `FixMissingCommits`: collect the references whose target commit
does not load (fsck.go:1157-1172; a symbolic reference resolves to
`ZeroHash`, which never loads), then fix each, threading the updated
reference store. -/
def fixMissingCommits (commits : Store) (refs : List RefEntry) :
    List RefEntry :=
  ((refs.filter
      (fun r => (lookupCommit commits (resolveHash r.target)).isNone)).map
    (fun r => r.name)).foldl (fixStep commits) refs

theorem findValidReference_target (refs : List RefEntry) (b : Nat)
    (h : findValidReference refs = some b) :
    ∃ rb ∈ refs, rb.name = b ∧ resolveHash rb.target ≠ zeroHash := by
  rw [findValidReference] at h
  cases hcom : [mainName, masterName, developName].find?
      (fun n => validBranchNamed refs n) with
  | some n =>
    rw [hcom] at h
    cases h
    have hvb := List.find?_some hcom
    rw [validBranchNamed] at hvb
    cases hlr : lookupRef refs b with
    | none => rw [hlr] at hvb; cases hvb
    | some r =>
      rw [hlr] at hvb
      rw [lookupRef] at hlr
      have hmem := List.mem_of_find?_eq_some hlr
      have hname := List.find?_some hlr
      exact ⟨r, hmem, by simpa using hname, by simpa using hvb⟩
  | none =>
    rw [hcom] at h
    rw [Option.map_eq_some'] at h
    obtain ⟨r, hfind, hname⟩ := h
    have hmem := List.mem_of_find?_eq_some hfind
    have hp := List.find?_some hfind
    rw [Bool.and_eq_true] at hp
    exact ⟨r, hmem, hname, by simpa using hp.2⟩

theorem mrvc_fold_spec (commits : Store) : ∀ (refs : List RefEntry)
    (acc : Option (Hash × Commit)),
    (∀ h0 c0, acc = some (h0, c0) → lookupCommit commits h0 = some c0) →
    ∀ h c, refs.foldl (mrvcStep commits) acc = some (h, c) →
      lookupCommit commits h = some c ∧
      (∀ h0 c0, acc = some (h0, c0) → c0.committerWhen ≤ c.committerWhen) ∧
      (∀ r ∈ refs, r.isBranch = true → resolveHash r.target ≠ zeroHash →
        ∀ c', lookupCommit commits (resolveHash r.target) = some c' →
          c'.committerWhen ≤ c.committerWhen) := by
  intro refs
  induction refs with
  | nil =>
    intro acc hacc h c hfold
    rw [List.foldl_nil] at hfold
    refine ⟨hacc h c hfold, ?_, ?_⟩
    · intro h0 c0 hacc0
      rw [hfold] at hacc0
      cases hacc0
      exact Nat.le_refl _
    · intro r hr
      cases hr
  | cons r t ih =>
    intro acc hacc h c hfold
    rw [List.foldl_cons] at hfold
    by_cases hguard : (r.isBranch && decide (resolveHash r.target ≠ zeroHash)) = true
    · rw [Bool.and_eq_true] at hguard
      cases hcr : lookupCommit commits (resolveHash r.target) with
      | none =>
        have hstep : mrvcStep commits acc r = acc := by
          simp [mrvcStep, hguard.1, hguard.2, hcr]
        rw [hstep] at hfold
        obtain ⟨hlook, haccw, htail⟩ := ih acc hacc h c hfold
        refine ⟨hlook, haccw, ?_⟩
        intro r' hr' hb hz c' hc'
        cases hr' with
        | head =>
          rw [hcr] at hc'
          cases hc'
        | tail _ hr'' => exact htail r' hr'' hb hz c' hc'
      | some cr =>
        cases hacceq : acc with
        | none =>
          rw [hacceq] at hfold
          have hstep : mrvcStep commits none r
              = some (resolveHash r.target, cr) := by
            simp [mrvcStep, hguard.1, hguard.2, hcr]
          rw [hstep] at hfold
          have hacc' : ∀ h1 c1,
              (some (resolveHash r.target, cr) : Option (Hash × Commit))
                = some (h1, c1) → lookupCommit commits h1 = some c1 := by
            intro h1 c1 he
            cases he
            exact hcr
          obtain ⟨hlook, haccw, htail⟩ := ih _ hacc' h c hfold
          refine ⟨hlook, ?_, ?_⟩
          · intro h1 c1 he
            exact Option.noConfusion he
          · intro r' hr' hb hz c' hc'
            cases hr' with
            | head =>
              rw [hcr] at hc'
              cases hc'
              exact haccw (resolveHash r.target) cr rfl
            | tail _ hr'' => exact htail r' hr'' hb hz c' hc'
        | some hc0 =>
          obtain ⟨h0, c0⟩ := hc0
          rw [hacceq] at hfold
          have hlook0 := hacc h0 c0 hacceq
          by_cases hlt : c0.committerWhen < cr.committerWhen
          · have hstep : mrvcStep commits (some (h0, c0)) r
                = some (resolveHash r.target, cr) := by
              simp [mrvcStep, hguard.1, hguard.2, hcr, hlt]
            rw [hstep] at hfold
            have hacc' : ∀ h1 c1,
                (some (resolveHash r.target, cr) : Option (Hash × Commit))
                  = some (h1, c1) → lookupCommit commits h1 = some c1 := by
              intro h1 c1 he
              cases he
              exact hcr
            obtain ⟨hlook, haccw, htail⟩ := ih _ hacc' h c hfold
            have hcrw : cr.committerWhen ≤ c.committerWhen :=
              haccw (resolveHash r.target) cr rfl
            refine ⟨hlook, ?_, ?_⟩
            · intro h1 c1 he
              cases he
              exact Nat.le_trans (Nat.le_of_lt hlt) hcrw
            · intro r' hr' hb hz c' hc'
              cases hr' with
              | head =>
                rw [hcr] at hc'
                cases hc'
                exact hcrw
              | tail _ hr'' => exact htail r' hr'' hb hz c' hc'
          · have hstep : mrvcStep commits (some (h0, c0)) r
                = some (h0, c0) := by
              simp [mrvcStep, hguard.1, hguard.2, hcr, hlt]
            rw [hstep] at hfold
            have hacc' : ∀ h1 c1,
                (some (h0, c0) : Option (Hash × Commit)) = some (h1, c1) →
                  lookupCommit commits h1 = some c1 := by
              intro h1 c1 he
              cases he
              exact hlook0
            obtain ⟨hlook, haccw, htail⟩ := ih _ hacc' h c hfold
            have hc0w : c0.committerWhen ≤ c.committerWhen := haccw h0 c0 rfl
            refine ⟨hlook, ?_, ?_⟩
            · intro h1 c1 he
              cases he
              exact hc0w
            · intro r' hr' hb hz c' hc'
              cases hr' with
              | head =>
                rw [hcr] at hc'
                cases hc'
                exact Nat.le_trans (Nat.le_of_not_lt hlt) hc0w
              | tail _ hr'' => exact htail r' hr'' hb hz c' hc'
    · have hstep : mrvcStep commits acc r = acc := by
        rw [mrvcStep, if_neg hguard]
      rw [hstep] at hfold
      obtain ⟨hlook, haccw, htail⟩ := ih acc hacc h c hfold
      refine ⟨hlook, haccw, ?_⟩
      intro r' hr' hb hz c' hc'
      cases hr' with
      | head =>
        exact absurd (by simp [hb, hz]) hguard
      | tail _ hr'' => exact htail r' hr'' hb hz c' hc'

theorem findMostRecentValidCommit_spec (commits : Store)
    (refs : List RefEntry) (h : Hash) (c : Commit)
    (hf : findMostRecentValidCommit commits refs = some (h, c)) :
    lookupCommit commits h = some c ∧
    ∀ r ∈ refs, r.isBranch = true → resolveHash r.target ≠ zeroHash →
      ∀ c', lookupCommit commits (resolveHash r.target) = some c' →
        c'.committerWhen ≤ c.committerWhen := by
  have := mrvc_fold_spec commits refs none (fun h0 c0 he => by cases he) h c hf
  exact ⟨this.1, this.2.2⟩

theorem head_mem_setRefTarget (refs : List RefEntry) (n : Nat) (t : RefTarget)
    (hh : ∃ r ∈ refs, r.name = headName) :
    ∃ r' ∈ setRefTarget refs n t, r'.name = headName := by
  obtain ⟨r, hr, hname⟩ := hh
  by_cases he : r.name = n
  · exact ⟨{ r with target := t }, List.mem_map.mpr ⟨r, hr, by rw [if_pos he]⟩,
      hname⟩
  · exact ⟨r, List.mem_map.mpr ⟨r, hr, by rw [if_neg he]⟩, hname⟩

theorem head_mem_fixStep (commits : Store) (refs : List RefEntry) (n : Nat)
    (hh : ∃ r ∈ refs, r.name = headName) :
    ∃ r' ∈ fixStep commits refs n, r'.name = headName := by
  rw [fixStep]
  by_cases hn : n = headName
  · rw [if_pos hn]
    cases findValidReference refs with
    | some b => exact head_mem_setRefTarget refs headName _ hh
    | none =>
      cases findMostRecentValidCommit commits refs with
      | some hc => exact head_mem_setRefTarget refs headName _ hh
      | none => exact hh
  · rw [if_neg hn]
    cases findMostRecentValidCommit commits refs with
    | some hc => exact head_mem_setRefTarget refs n _ hh
    | none =>
      obtain ⟨r, hr, hname⟩ := hh
      refine ⟨r, List.mem_filter.mpr ⟨hr, ?_⟩, hname⟩
      simp [hname]
      exact fun he => hn (he ▸ rfl)

theorem head_mem_foldl_fixStep (commits : Store) : ∀ (ns : List Nat)
    (refs : List RefEntry), (∃ r ∈ refs, r.name = headName) →
    ∃ r' ∈ ns.foldl (fixStep commits) refs, r'.name = headName := by
  intro ns
  induction ns with
  | nil => exact fun refs hh => hh
  | cons n t ih =>
    intro refs hh
    rw [List.foldl_cons]
    exact ih _ (head_mem_fixStep commits refs n hh)

/-- C10 — `FixMissingCommits` never deletes `HEAD`: after the whole
pass `HEAD` is still present whenever it was; the `HEAD` fix step
repoints it symbolically to a valid branch (one that exists with a
non-zero hash) when `findValidReference` finds one, else detaches it
onto the most recent valid commit (a hash that loads as a commit and
whose committer time is maximal among valid branch tips), and leaves
it in place when neither exists; every other collected reference is
repointed to the most recent valid commit when one exists and deleted
otherwise. -/
theorem fixMissingCommits_spec (commits : Store) (refs : List RefEntry) :
    ((∃ r ∈ refs, r.name = headName) →
      ∃ r' ∈ fixMissingCommits commits refs, r'.name = headName) ∧
    (∀ st : List RefEntry,
      (∀ b, findValidReference st = some b →
        fixStep commits st headName = setRefTarget st headName (.symbolicTo b) ∧
        ∃ rb ∈ st, rb.name = b ∧ resolveHash rb.target ≠ zeroHash) ∧
      (findValidReference st = none →
        ∀ h c, findMostRecentValidCommit commits st = some (h, c) →
          fixStep commits st headName = setRefTarget st headName (.hashAt h) ∧
          lookupCommit commits h = some c ∧
          ∀ r ∈ st, r.isBranch = true → resolveHash r.target ≠ zeroHash →
            ∀ c', lookupCommit commits (resolveHash r.target) = some c' →
              c'.committerWhen ≤ c.committerWhen) ∧
      (findValidReference st = none →
        findMostRecentValidCommit commits st = none →
        fixStep commits st headName = st)) ∧
    (∀ st : List RefEntry, ∀ n, n ≠ headName →
      (∀ h c, findMostRecentValidCommit commits st = some (h, c) →
        fixStep commits st n = setRefTarget st n (.hashAt h)) ∧
      (findMostRecentValidCommit commits st = none →
        fixStep commits st n = removeRef st n)) := by
  refine ⟨?_, ?_, ?_⟩
  · intro hh
    exact head_mem_foldl_fixStep commits _ refs hh
  · intro st
    refine ⟨?_, ?_, ?_⟩
    · intro b hb
      rw [fixStep, if_pos rfl, hb]
      exact ⟨rfl, findValidReference_target st b hb⟩
    · intro hnone h c hmr
      rw [fixStep, if_pos rfl, hnone, hmr]
      have := findMostRecentValidCommit_spec commits st h c hmr
      exact ⟨rfl, this.1, this.2⟩
    · intro hnone hmr
      rw [fixStep, if_pos rfl, hnone, hmr]
  · intro st n hn
    refine ⟨?_, ?_⟩
    · intro h c hmr
      rw [fixStep, if_neg hn, hmr]
    · intro hmr
      rw [fixStep, if_neg hn, hmr]

/-- Witness for C10 at a concrete input: `HEAD` points at missing
commit `99`, `main` is a valid branch at commit `10`, ref `7` points at
missing commit `98`; after the pass `HEAD` is still present. -/
theorem fixMissingCommits_spec_witness :
    (∃ r ∈ ([⟨headName, false, .hashAt 99⟩, ⟨mainName, true, .hashAt 10⟩,
        ⟨7, true, .hashAt 98⟩] : List RefEntry), r.name = headName) ∧
    ∃ r' ∈ fixMissingCommits [(10, ⟨0, [], 0, 0, 5, 0⟩)]
        [⟨headName, false, .hashAt 99⟩, ⟨mainName, true, .hashAt 10⟩,
         ⟨7, true, .hashAt 98⟩], r'.name = headName :=
  ⟨⟨⟨headName, false, .hashAt 99⟩, by decide, rfl⟩,
   (fixMissingCommits_spec [(10, ⟨0, [], 0, 0, 5, 0⟩)]
      [⟨headName, false, .hashAt 99⟩, ⟨mainName, true, .hashAt 10⟩,
       ⟨7, true, .hashAt 98⟩]).1
     ⟨⟨headName, false, .hashAt 99⟩, by decide, rfl⟩⟩

/-- The commit built at filter.go:217-223: same tree, author, committer
and message, with every parent that is a key of the overlay replaced by
its overlay value. -/
def substParents (m : Overlay) (c : Commit) : Commit :=
  { c with parents := c.parents.map (fun r => (lookupL r m).getD r) }

/-- C3 — Rewrite propagation: during `FilterRepo`'s walk, a commit `C`
that is not itself a key of the overlay but has a parent `p` that is
mapped by the overlay to a different hash `q` is re-encoded: the new
commit keeps `C`'s tree, author, committer and message, its parent list
is the old one with every overlay key substituted (so a sole parent `A`
becomes `A`'s replacement), the new commit is stored at its content
hash, and `C ↦ new-hash` is added to the overlay.  (The walk is
parameterised over a content-addressed store, `StoreValid`.) -/
theorem filterStep_propagates (st : FilterState) (C : Hash) (c : Commit)
    (p q : Hash)
    (hv : StoreValid st.store)
    (hnot : lookupL C st.commitMap = none)
    (hc : lookupCommit st.store C = some c)
    (hp : p ∈ c.parents)
    (hq : lookupL p st.commitMap = some q) (hne : q ≠ p) :
    lookupL C (filterStep st C).commitMap
        = some (hashCommit (substParents st.commitMap c)) ∧
    lookupCommit (filterStep st C).store
        (hashCommit (substParents st.commitMap c))
        = some (substParents st.commitMap c) ∧
    (substParents st.commitMap c).tree = c.tree ∧
    (substParents st.commitMap c).author = c.author ∧
    (substParents st.commitMap c).committer = c.committer ∧
    (substParents st.commitMap c).committerWhen = c.committerWhen ∧
    (substParents st.commitMap c).message = c.message ∧
    (substParents st.commitMap c).parents
        = c.parents.map (fun r => (lookupL r st.commitMap).getD r) := by
  have hany : c.parents.any (fun r => (lookupL r st.commitMap).isSome) = true :=
    List.any_eq_true.mpr ⟨p, hp, by rw [hq]; rfl⟩
  have hCc : C = hashCommit c := hv C c hc
  have hcne : substParents st.commitMap c ≠ c := by
    intro heq
    have hpar : c.parents.map (fun r => (lookupL r st.commitMap).getD r)
        = c.parents := congrArg Commit.parents heq
    have := map_eq_self_of_mem _ _ hpar p hp
    rw [hq] at this
    exact hne this
  have hhne : hashCommit (substParents st.commitMap c) ≠ C := by
    rw [hCc]
    exact fun h => hcne (hashCommit_injective h)
  have hrw : rewriteCommit st.store st.commitMap C
      = ⟨(storeCommit st.store (substParents st.commitMap c)).2,
         (storeCommit st.store (substParents st.commitMap c)).1⟩ := by
    simp only [rewriteCommit, hnot, hc, hany, if_pos, substParents]
  have hst2 : (storeCommit st.store (substParents st.commitMap c)).2
      = hashCommit (substParents st.commitMap c) := by
    unfold storeCommit
    cases lookupCommit st.store (hashCommit (substParents st.commitMap c)) <;> rfl
  have hlook : lookupCommit (storeCommit st.store (substParents st.commitMap c)).1
      (hashCommit (substParents st.commitMap c))
      = some (substParents st.commitMap c) := by
    unfold storeCommit
    cases hsc : lookupCommit st.store (hashCommit (substParents st.commitMap c)) with
    | none =>
      simp [lookupCommit, lookupL]
    | some c' =>
      have := hv _ _ hsc
      have hc' : c' = substParents st.commitMap c := hashCommit_injective this.symm
      rw [hc'] at hsc
      exact hsc
  have hstep : filterStep st C
      = ⟨(storeCommit st.store (substParents st.commitMap c)).1,
         (C, hashCommit (substParents st.commitMap c)) :: st.commitMap⟩ := by
    unfold filterStep
    rw [hrw]
    simp only [hst2, if_neg hhne]
  rw [hstep]
  refine ⟨?_, hlook, rfl, rfl, rfl, rfl, rfl, rfl⟩
  simp [lookupL]

/-- Witness for C3 at a concrete input: a store holding one commit with
parent `5`, and an overlay mapping `5 ↦ 7`. -/
theorem filterStep_propagates_witness :
    lookupL (hashCommit ⟨1, [5], 2, 3, 4, 6⟩)
        (filterStep ⟨[(hashCommit ⟨1, [5], 2, 3, 4, 6⟩, ⟨1, [5], 2, 3, 4, 6⟩)],
          [(5, 7)]⟩ (hashCommit ⟨1, [5], 2, 3, 4, 6⟩)).commitMap
      = some (hashCommit (substParents [(5, 7)] ⟨1, [5], 2, 3, 4, 6⟩)) ∧
    (substParents [(5, 7)] (⟨1, [5], 2, 3, 4, 6⟩ : Commit)).parents = [7] :=
  ⟨(filterStep_propagates
      ⟨[(hashCommit ⟨1, [5], 2, 3, 4, 6⟩, ⟨1, [5], 2, 3, 4, 6⟩)], [(5, 7)]⟩
      (hashCommit ⟨1, [5], 2, 3, 4, 6⟩) ⟨1, [5], 2, 3, 4, 6⟩ 5 7
      (storeValid_of_entries _
        (by intro e he; rw [List.mem_singleton] at he; subst he; rfl))
      (by decide) (by decide) (by decide) (by decide) (by decide)).1,
   by decide⟩

/-- C4 — Ancestry preservation: a commit that is not a key of the
overlay and none of whose parents are keys of the overlay is returned
by `rewriteCommit` with its original hash and the store untouched
(unchanged commits are never re-encoded). -/
theorem rewriteCommit_unchanged (store : Store) (m : Overlay) (C : Hash)
    (hnot : lookupL C m = none)
    (hpar : ∀ c, lookupCommit store C = some c → ∀ p ∈ c.parents, lookupL p m = none) :
    rewriteCommit store m C = ⟨C, store⟩ := by
  cases hsc : lookupCommit store C with
  | none => simp [rewriteCommit, hnot, hsc]
  | some c =>
    have hall : c.parents.any (fun r => (lookupL r m).isSome) = false := by
      rw [List.any_eq_false]
      intro r hr
      rw [hpar c hsc r hr]
      simp
    simp [rewriteCommit, hnot, hsc, hall]

/-- Witness for C4 at a concrete input: commit `42` with parent `5`,
overlay mapping only `9 ↦ 11`. -/
theorem rewriteCommit_unchanged_witness :
    rewriteCommit [(42, ⟨1, [5], 2, 3, 4, 6⟩)] [(9, 11)] 42
      = ⟨42, [(42, ⟨1, [5], 2, 3, 4, 6⟩)]⟩ :=
  rewriteCommit_unchanged [(42, ⟨1, [5], 2, 3, 4, 6⟩)] [(9, 11)] 42
    (by decide)
    (by
      intro c hc r hr
      have hceq : (⟨1, [5], 2, 3, 4, 6⟩ : Commit) = c := by
        simpa [lookupCommit, lookupL] using hc
      subst hceq
      have : r = 5 := by simpa using hr
      subst this
      decide)

end Nsha
